import Mathlib

namespace Proquint

/-- Slot kinds of the construction pattern: key "C" (consonant) or "V" (vowel). -/
inductive Slot where
  | C : Slot
  | V : Slot
deriving DecidableEq, Repr

/-- The consonant alphabet string "bdfghjklmnprstvz" of ALPHABET["C"]. -/
def consonantChars : List Char :=
  ['b', 'd', 'f', 'g', 'h', 'j', 'k', 'l', 'm', 'n', 'p', 'r', 's', 't', 'v', 'z']

/-- The vowel alphabet string "aiou" of ALPHABET["V"]. -/
def vowelChars : List Char := ['a', 'i', 'o', 'u']

/-- ALPHABET: construction key -> (alphabet, length of covered bits). -/
def ALPHABET : Slot → List Char × Nat
  | Slot.C => (consonantChars, 4)
  | Slot.V => (vowelChars, 2)

/-- CONSTRUCTION = "CVCVC". -/
def CONSTRUCTION : List Slot := [Slot.C, Slot.V, Slot.C, Slot.V, Slot.C]

/-- Error taxonomy of the spec. The source signals them as AssertionError
(the three assert statements) and ValueError (str.index on a missing
character, str.split on an empty separator). -/
inductive PqError where
  | InvalidInputLength
  | InvalidLength
  | InvalidSymbol
  | EmptySeparator
deriving DecidableEq, Repr

/-- Loop body of encode_uint16: for each position of reversed(CONSTRUCTION),
append alphabet[double & (pow(2, bits) - 1)] and shift double right by bits.
The index is always below the alphabet length, so the getD default is inert. -/
def encodeLoop : List Slot → Nat → List Char
  | [], _ => []
  | pos :: rest, double =>
      (ALPHABET pos).1.getD (double &&& (2 ^ (ALPHABET pos).2 - 1)) ' ' ::
        encodeLoop rest (double >>> (ALPHABET pos).2)

/-- Proquint.encode_uint16: builds the symbols over reversed(CONSTRUCTION) and
reverses the accumulated result. -/
def encode_uint16 (double : Nat) : List Char :=
  (encodeLoop CONSTRUCTION.reverse double).reverse

/-- The chunk list [data[i:i+2] for i in range(0, len(data), 2)]; encode only
uses it on even-length data, where every chunk has exactly two bytes. -/
def chunkPairs : List Nat → List (Nat × Nat)
  | b0 :: b1 :: rest => (b0, b1) :: chunkPairs rest
  | _ => []

/-- Python sep.join applied to a list of strings. -/
def joinSep (sep : List Char) : List (List Char) → List Char
  | [] => []
  | [t] => t
  | t :: rest => t ++ sep ++ joinSep sep rest

/-- Proquint.encode: asserts len(data) % 2 == 0 (the spec error
InvalidInputLength), reads each 2-byte chunk as a big-endian uint16
(int.from_bytes(chunk, "big") = b0 * 256 + b1), encodes each chunk and joins
the proquints with the separator. -/
def encode (data : List Nat) (sep : List Char) : Except PqError (List Char) :=
  if data.length % 2 = 0 then
    Except.ok (joinSep sep
      ((chunkPairs data).map (fun wb => encode_uint16 (wb.1 * 256 + wb.2))))
  else
    Except.error PqError.InvalidInputLength

/-- The string ''.join(a[0] for a in ALPHABET.values()): the two alphabets
concatenated in dict insertion order, "C" before "V". -/
def combinedAlphabet : List Char := (ALPHABET Slot.C).1 ++ (ALPHABET Slot.V).1

/-- Loop body of decode_uint16 over zip(CONSTRUCTION, proquint):
result = (result << bits) | alphabet.index(char). A character missing from
the slot's alphabet makes str.index raise ValueError, which the spec's
taxonomy calls InvalidSymbol. -/
def decodeLoop : List (Slot × Char) → Nat → Except PqError Nat
  | [], result => Except.ok result
  | (pos, c) :: rest, result =>
      match (ALPHABET pos).1.findIdx? (fun a => a == c) with
      | some i => decodeLoop rest ((result <<< (ALPHABET pos).2) ||| i)
      | none => Except.error PqError.InvalidSymbol

/-- Proquint.decode_uint16: asserts len(proquint) == 5 (the spec error
InvalidLength), asserts that every character is in the combined alphabet
(the spec error InvalidSymbol), then accumulates the slot indices. -/
def decode_uint16 (proquint : List Char) : Except PqError Nat :=
  if proquint.length = 5 then
    if proquint.all (fun c => combinedAlphabet.contains c) then
      decodeLoop (CONSTRUCTION.zip proquint) 0
    else
      Except.error PqError.InvalidSymbol
  else
    Except.error PqError.InvalidLength

/-- Whether pat occurs at the very start of s; the matching step of
str.split's left-to-right scan. -/
def matchesAt : List Char → List Char → Bool
  | [], _ => true
  | _ :: _, [] => false
  | p :: ps, c :: cs => p == c && matchesAt ps cs

/-- Python str.split with the nonempty separator s0 :: sr: cut at each
leftmost, non-overlapping occurrence of the separator; acc holds the
characters of the current piece in reverse. -/
def splitAux (s0 : Char) (sr : List Char) : List Char → List Char → List (List Char)
  | [], acc => [acc.reverse]
  | c :: cs, acc =>
      if matchesAt (s0 :: sr) (c :: cs) then
        acc.reverse :: splitAux s0 sr (cs.drop sr.length) []
      else
        splitAux s0 sr cs (c :: acc)
termination_by s _ => s.length
decreasing_by
  all_goals simp [List.length_drop]
  omega

/-- Python str.split. An empty separator makes str.split raise ValueError;
decode rejects that case before calling split, so the [] equation here is
never reached from decode and only fixes a total Lean function. -/
def splitSep : List Char → List Char → List (List Char)
  | [], s => [s]
  | s0 :: sr, s => splitAux s0 sr s []

/-- int.to_bytes(2, "big"). Python raises OverflowError when x >= 2^16; every
value decode passes in is a decode_uint16 result, which is below 2^16
(theorem decode_uint16_lt below), so that branch is unreachable and the
model returns the two big-endian bytes directly. -/
def toBytes2 (x : Nat) : List Nat := [x / 256, x % 256]

/-- Proquint.decode: splits on the separator (ValueError on an empty
separator, modelled EmptySeparator), decodes each candidate token in order
with the first failure propagating, and concatenates the big-endian 2-byte
representations. -/
def decode (proquints : List Char) : List Char → Except PqError (List Nat)
  | [] => Except.error PqError.EmptySeparator
  | s0 :: sr => do
      let words ← (splitAux s0 sr proquints []).mapM decode_uint16
      return (words.map toBytes2).flatten

/-- Reference shift-and-mask form of encode-word, written from the spec's
words (and the non-iterative form quoted in the source's docstring): take the
most-significant field first, consonant_alphabet[(x >> 12) & 15],
vowel_alphabet[(x >> 10) & 3], consonant_alphabet[(x >> 6) & 15],
vowel_alphabet[(x >> 4) & 3], consonant_alphabet[x & 15], in slot order. -/
def encode_uint16_ref (x : Nat) : List Char :=
  [consonantChars.getD ((x >>> 12) &&& 15) ' ',
   vowelChars.getD ((x >>> 10) &&& 3) ' ',
   consonantChars.getD ((x >>> 6) &&& 15) ' ',
   vowelChars.getD ((x >>> 4) &&& 3) ' ',
   consonantChars.getD (x &&& 15) ' ']

/-- Closed form of encode_uint16: the five symbols, most-significant field
first, indexed by the five bit fields of the input. -/
theorem encode_uint16_eq (x : Nat) :
    encode_uint16 x =
      [consonantChars.getD (x / 4096 % 16) ' ',
       vowelChars.getD (x / 1024 % 4) ' ',
       consonantChars.getD (x / 64 % 16) ' ',
       vowelChars.getD (x / 16 % 4) ' ',
       consonantChars.getD (x % 16) ' '] := by
  have h15 : ∀ y : Nat, y &&& 15 = y % 16 := fun y => by
    have h := Nat.and_pow_two_sub_one_eq_mod y 4
    norm_num at h
    exact h
  have h3 : ∀ y : Nat, y &&& 3 = y % 4 := fun y => by
    have h := Nat.and_pow_two_sub_one_eq_mod y 2
    norm_num at h
    exact h
  show (encodeLoop ([Slot.C, Slot.V, Slot.C, Slot.V, Slot.C]).reverse x).reverse = _
  simp only [List.reverse_cons, List.reverse_nil, List.nil_append, List.cons_append,
    encodeLoop, ALPHABET]
  norm_num [Nat.shiftRight_eq_div_pow, Nat.div_div_eq_div_mul, h15, h3]

/-- Every consonant symbol passes the combined-alphabet membership check. -/
theorem mem_consonant : ∀ i, i < 16 →
    (consonantChars[i]?).getD ' ' ∈ combinedAlphabet := by decide

/-- Every vowel symbol passes the combined-alphabet membership check. -/
theorem mem_vowel : ∀ i, i < 4 →
    (vowelChars[i]?).getD ' ' ∈ combinedAlphabet := by decide

/-- str.index recovers the index of any consonant symbol. -/
theorem findIdx_consonant : ∀ i, i < 16 →
    consonantChars.findIdx? (fun a => a == consonantChars.getD i ' ') = some i := by
  decide

/-- str.index recovers the index of any vowel symbol. -/
theorem findIdx_vowel : ∀ i, i < 4 →
    vowelChars.findIdx? (fun a => a == vowelChars.getD i ' ') = some i := by
  decide

/-- Shift-then-or is multiply-then-add when the or-ed value fits the shift. -/
theorem shiftLeft_or_eq (a b k : Nat) (h : b < 2 ^ k) :
    (a <<< k) ||| b = a * 2 ^ k + b := by
  rw [Nat.shiftLeft_eq, Nat.mul_comm a (2 ^ k)]
  exact (Nat.mul_add_lt_is_or h a).symm

/-- Decoding inverts encoding on every 16-bit word. -/
theorem decode_encode_uint16 (x : Nat) (hx : x < 65536) :
    decode_uint16 (encode_uint16 x) = Except.ok x := by
  have b1 : x / 4096 % 16 < 16 := Nat.mod_lt _ (by norm_num)
  have b2 : x / 1024 % 4 < 4 := Nat.mod_lt _ (by norm_num)
  have b3 : x / 64 % 16 < 16 := Nat.mod_lt _ (by norm_num)
  have b4 : x / 16 % 4 < 4 := Nat.mod_lt _ (by norm_num)
  have b5 : x % 16 < 16 := Nat.mod_lt _ (by norm_num)
  rw [encode_uint16_eq]
  simp only [decode_uint16]
  rw [if_pos (by simp)]
  rw [if_pos (by simp [List.all_cons, mem_consonant _ b1, mem_vowel _ b2,
    mem_consonant _ b3, mem_vowel _ b4, mem_consonant _ b5])]
  simp only [CONSTRUCTION, List.zip_cons_cons, List.zip_nil_right, decodeLoop, ALPHABET,
    findIdx_consonant _ b1, findIdx_vowel _ b2, findIdx_consonant _ b3,
    findIdx_vowel _ b4, findIdx_consonant _ b5]
  congr 1
  rw [shiftLeft_or_eq, shiftLeft_or_eq, shiftLeft_or_eq, shiftLeft_or_eq, shiftLeft_or_eq]
  · norm_num
    omega
  all_goals norm_num
  all_goals omega

/-- A pattern matches at the front of any extension of itself. -/
theorem matchesAt_self_append (p r : List Char) : matchesAt p (p ++ r) = true := by
  induction p with
  | nil => rfl
  | cons a ps ih => simp [matchesAt, ih]

/-- Scanning a string of alphabet characters finds no separator occurrence when
the separator starts outside the alphabet, so the whole string is one piece. -/
theorem splitAux_no_sep (s0 : Char) (sr : List Char) (hs : s0 ∉ combinedAlphabet)
    (s : List Char) : ∀ acc, (∀ c ∈ s, c ∈ combinedAlphabet) →
      splitAux s0 sr s acc = [acc.reverse ++ s] := by
  induction s with
  | nil => intro acc _; simp [splitAux]
  | cons c cs ih =>
    intro acc hmem
    have hc : c ∈ combinedAlphabet := hmem c (List.mem_cons_self c cs)
    have hne : (s0 == c) = false := by
      apply beq_eq_false_iff_ne.mpr
      intro he
      exact hs (he ▸ hc)
    rw [splitAux.eq_2]
    simp only [matchesAt, hne, Bool.false_and, Bool.false_eq_true, if_false]
    rw [ih (c :: acc) (fun d hd => hmem d (List.mem_cons_of_mem c hd))]
    simp

/-- Scanning one alphabet-only token followed by the separator emits the token
and continues after the separator. -/
theorem splitAux_token (s0 : Char) (sr : List Char) (hs : s0 ∉ combinedAlphabet)
    (t : List Char) : ∀ acc more, (∀ c ∈ t, c ∈ combinedAlphabet) →
      splitAux s0 sr (t ++ (s0 :: sr) ++ more) acc
        = (acc.reverse ++ t) :: splitAux s0 sr more [] := by
  induction t with
  | nil =>
    intro acc more _
    rw [List.nil_append, List.cons_append, splitAux.eq_2]
    have hm : matchesAt (s0 :: sr) (s0 :: (sr ++ more)) = true := by
      have := matchesAt_self_append (s0 :: sr) more
      simpa using this
    simp only [hm, if_true]
    rw [List.drop_left]
    simp
  | cons c t' ih =>
    intro acc more hmem
    have hc : c ∈ combinedAlphabet := hmem c (List.mem_cons_self c t')
    have hne : (s0 == c) = false := by
      apply beq_eq_false_iff_ne.mpr
      intro he
      exact hs (he ▸ hc)
    rw [List.cons_append, List.cons_append, splitAux.eq_2]
    simp only [matchesAt, hne, Bool.false_and, Bool.false_eq_true, if_false]
    rw [ih (c :: acc) more (fun d hd => hmem d (List.mem_cons_of_mem c hd))]
    simp

/-- Splitting inverts joining: with a separator whose first character is
outside the alphabet, str.split recovers exactly the joined token list,
provided it is nonempty and all tokens stay inside the alphabet. -/
theorem splitAux_joinSep (s0 : Char) (sr : List Char) (hs : s0 ∉ combinedAlphabet) :
    ∀ ts : List (List Char), ts ≠ [] → (∀ t ∈ ts, ∀ c ∈ t, c ∈ combinedAlphabet) →
      splitAux s0 sr (joinSep (s0 :: sr) ts) [] = ts := by
  intro ts
  induction ts with
  | nil => intro h _; exact absurd rfl h
  | cons t ts' ih =>
    intro _ hmem
    cases ts' with
    | nil =>
      show splitAux s0 sr t [] = [t]
      rw [splitAux_no_sep s0 sr hs t [] (hmem t (List.mem_cons_self t []))]
      simp
    | cons u us =>
      show splitAux s0 sr (t ++ (s0 :: sr) ++ joinSep (s0 :: sr) (u :: us)) [] = _
      rw [splitAux_token s0 sr hs t [] _ (hmem t (List.mem_cons_self t (u :: us)))]
      rw [ih (by simp) (fun v hv => hmem v (List.mem_cons_of_mem t hv))]
      simp

/-- Every character of an encoded token lies in the combined alphabet. -/
theorem encode_uint16_mem (x : Nat) : ∀ c ∈ encode_uint16 x, c ∈ combinedAlphabet := by
  intro c hc
  rw [encode_uint16_eq] at hc
  simp only [List.getD_eq_getElem?_getD, List.mem_cons, List.not_mem_nil, or_false] at hc
  rcases hc with h | h | h | h | h <;> subst h
  · exact mem_consonant _ (Nat.mod_lt _ (by norm_num))
  · exact mem_vowel _ (Nat.mod_lt _ (by norm_num))
  · exact mem_consonant _ (Nat.mod_lt _ (by norm_num))
  · exact mem_vowel _ (Nat.mod_lt _ (by norm_num))
  · exact mem_consonant _ (Nat.mod_lt _ (by norm_num))

/-- Every encoded token has exactly 5 characters. -/
theorem encode_uint16_length (x : Nat) : (encode_uint16 x).length = 5 := by
  rw [encode_uint16_eq]
  rfl

/-- Decoding a list of encoded 16-bit words succeeds and returns the words. -/
theorem mapM_decode_encode : ∀ ws : List Nat, (∀ w ∈ ws, w < 65536) →
    (ws.map encode_uint16).mapM decode_uint16 = Except.ok ws := by
  intro ws
  induction ws with
  | nil => intro _; rfl
  | cons w ws' ih =>
    intro h
    simp only [List.map_cons, List.mapM_cons]
    rw [decode_encode_uint16 w (h w (List.mem_cons_self w ws'))]
    rw [ih (fun v hv => h v (List.mem_cons_of_mem w hv))]
    rfl

/-- int.to_bytes(2, "big") undoes int.from_bytes on a two-byte chunk. -/
theorem toBytes2_word (b0 b1 : Nat) (h0 : b0 < 256) (h1 : b1 < 256) :
    toBytes2 (b0 * 256 + b1) = [b0, b1] := by
  have e1 : (b0 * 256 + b1) / 256 = b0 := by omega
  have e2 : (b0 * 256 + b1) % 256 = b1 := by omega
  simp only [toBytes2, e1, e2]

/-- A list that is not two-or-more long has no chunks, and if even it is empty. -/
theorem chunkPairs_short (t : List Nat)
    (h : ∀ (b0 b1 : Nat) (rest : List Nat), t = b0 :: b1 :: rest → False) :
    chunkPairs t = [] ∧ (t.length % 2 = 0 → t = []) := by
  match t with
  | [] => exact ⟨rfl, fun _ => rfl⟩
  | [b] => exact ⟨rfl, fun hl => by simp at hl⟩
  | b0 :: b1 :: rest => exact absurd rfl (h b0 b1 rest)

/-- Flattening the 2-byte forms of the chunk words restores the data. -/
theorem chunkPairs_flatten : ∀ data : List Nat, data.length % 2 = 0 →
    (∀ b ∈ data, b < 256) →
    ((chunkPairs data).map (fun wb => toBytes2 (wb.1 * 256 + wb.2))).flatten = data := by
  intro data
  induction data using chunkPairs.induct with
  | case1 b0 b1 rest ih =>
    intro hev hb
    have h0 : b0 < 256 := hb b0 (by simp)
    have h1 : b1 < 256 := hb b1 (by simp)
    rw [chunkPairs]
    simp only [List.map_cons, List.flatten_cons, toBytes2_word b0 b1 h0 h1]
    have hev' : rest.length % 2 = 0 := by
      simp only [List.length_cons] at hev
      omega
    rw [ih hev' (fun b hbm => hb b (by simp [hbm]))]
    rfl
  | case2 t h =>
    intro hev _
    rw [(chunkPairs_short t h).2 hev]
    rfl

/-- Every chunk word of a byte list fits in 16 bits. -/
theorem chunkPairs_word_lt : ∀ data : List Nat, (∀ b ∈ data, b < 256) →
    ∀ wb ∈ chunkPairs data, wb.1 * 256 + wb.2 < 65536 := by
  intro data
  induction data using chunkPairs.induct with
  | case1 b0 b1 rest ih =>
    intro hb wb hwb
    rw [chunkPairs] at hwb
    rcases List.mem_cons.mp hwb with rfl | hmem
    · have h0 : b0 < 256 := hb b0 (by simp)
      have h1 : b1 < 256 := hb b1 (by simp)
      simp only
      omega

    · exact ih (fun b hbm => hb b (by simp [hbm])) wb hmem
  | case2 t h =>
    intro _ wb hwb
    rw [(chunkPairs_short t h).1] at hwb
    simp at hwb

/-- On even-length data there are len(data)/2 chunks. -/
theorem chunkPairs_length : ∀ data : List Nat, data.length % 2 = 0 →
    (chunkPairs data).length = data.length / 2 := by
  intro data
  induction data using chunkPairs.induct with
  | case1 b0 b1 rest ih =>
    intro hev
    have hev' : rest.length % 2 = 0 := by
      simp only [List.length_cons] at hev
      omega
    rw [chunkPairs]
    simp only [List.length_cons, ih hev']
    omega
  | case2 t h =>
    intro hev
    rw [(chunkPairs_short t h).2 hev]
    rfl

/-- Nonempty even-length data has at least one chunk. -/
theorem chunkPairs_ne_nil (data : List Nat) (hne : data ≠ [])
    (hev : data.length % 2 = 0) : chunkPairs data ≠ [] := by
  match data, hne with
  | [b], _ => simp at hev
  | b0 :: b1 :: rest, _ =>
    rw [chunkPairs]
    simp

/-- Buffer-level round trip: decoding the encoding of nonempty even-length
byte data, with a separator whose first character is outside the combined
alphabet, restores the data. -/
theorem decode_encode_buffer (data : List Nat) (s0 : Char) (sr : List Char)
    (hne : data ≠ []) (hev : data.length % 2 = 0) (hbytes : ∀ b ∈ data, b < 256)
    (hs : s0 ∉ combinedAlphabet) (out : List Char)
    (hout : encode data (s0 :: sr) = Except.ok out) :
    decode out (s0 :: sr) = Except.ok data := by
  rw [encode, if_pos hev] at hout
  injection hout with hout
  subst hout
  have hsplit := splitAux_joinSep s0 sr hs
    ((chunkPairs data).map (fun wb => encode_uint16 (wb.1 * 256 + wb.2)))
    (by
      intro hmap
      exact chunkPairs_ne_nil data hne hev (List.map_eq_nil_iff.mp hmap))
    (by
      intro t ht c hc
      obtain ⟨wb, _, rfl⟩ := List.mem_map.mp ht
      exact encode_uint16_mem _ c hc)
  have hwords : ((chunkPairs data).map (fun wb => encode_uint16 (wb.1 * 256 + wb.2))).mapM
      decode_uint16 = Except.ok ((chunkPairs data).map (fun wb => wb.1 * 256 + wb.2)) := by
    rw [show (chunkPairs data).map (fun wb => encode_uint16 (wb.1 * 256 + wb.2))
        = ((chunkPairs data).map (fun wb => wb.1 * 256 + wb.2)).map encode_uint16 by
      rw [List.map_map]
      rfl]
    apply mapM_decode_encode
    intro w hw
    obtain ⟨wb, hwb, rfl⟩ := List.mem_map.mp hw
    exact chunkPairs_word_lt data hbytes wb hwb
  rw [decode, hsplit, hwords]
  show Except.ok _ = Except.ok data
  rw [List.map_map]
  congr 1
  exact chunkPairs_flatten data hev hbytes

/-- decodeLoop either succeeds or reports InvalidSymbol; no other outcome. -/
theorem decodeLoop_ok_or_invalid : ∀ (ps : List (Slot × Char)) (acc : Nat),
    (∃ r, decodeLoop ps acc = Except.ok r) ∨
      decodeLoop ps acc = Except.error PqError.InvalidSymbol := by
  intro ps
  induction ps with
  | nil => intro acc; exact Or.inl ⟨acc, rfl⟩
  | cons qc rest ih =>
    intro acc
    obtain ⟨pos, c⟩ := qc
    rw [decodeLoop]
    cases hf : (ALPHABET pos).1.findIdx? (fun a => a == c) with
    | none => exact Or.inr rfl
    | some i => exact ih _

/-- When decodeLoop succeeds, every processed character belongs to its slot's
alphabet. -/
theorem decodeLoop_ok_mem : ∀ (ps : List (Slot × Char)) (acc r : Nat),
    decodeLoop ps acc = Except.ok r → ∀ pc ∈ ps, pc.2 ∈ (ALPHABET pc.1).1 := by
  intro ps
  induction ps with
  | nil =>
    intro acc r _ pc hpc
    simp at hpc
  | cons qc rest ih =>
    intro acc r h pc hpc
    obtain ⟨pos, c⟩ := qc
    rw [decodeLoop] at h
    cases hf : (ALPHABET pos).1.findIdx? (fun a => a == c) with
    | none =>
      rw [hf] at h
      exact absurd h (by simp)
    | some i =>
      rw [hf] at h
      rcases List.mem_cons.mp hpc with heq | hmem
      · subst heq
        obtain ⟨hlt, hp, _⟩ := List.findIdx?_eq_some_iff_getElem.mp hf
        have hgc : (ALPHABET pos).1[i] = c := by simpa using hp
        exact hgc ▸ List.getElem_mem hlt
      · exact ih _ _ h pc hmem

/-- When decodeLoop succeeds starting from acc, the result is below
acc + 1 scaled by 2 to the total processed bit width. -/
theorem decodeLoop_lt : ∀ (ps : List (Slot × Char)) (acc r : Nat),
    decodeLoop ps acc = Except.ok r →
      r < 2 ^ ((ps.map (fun pc => (ALPHABET pc.1).2)).sum) * (acc + 1) := by
  intro ps
  induction ps with
  | nil =>
    intro acc r h
    injection h with h
    subst h
    simp
  | cons qc rest ih =>
    intro acc r h
    obtain ⟨pos, c⟩ := qc
    rw [decodeLoop] at h
    cases hf : (ALPHABET pos).1.findIdx? (fun a => a == c) with
    | none =>
      rw [hf] at h
      exact absurd h (by simp)
    | some i =>
      rw [hf] at h
      have hi : i < (ALPHABET pos).1.length :=
        (List.findIdx?_eq_some_iff_findIdx_eq.mp hf).1
      have hlen : (ALPHABET pos).1.length = 2 ^ (ALPHABET pos).2 := by
        cases pos <;> rfl
      have hacc : (acc <<< (ALPHABET pos).2) ||| i = acc * 2 ^ (ALPHABET pos).2 + i :=
        shiftLeft_or_eq acc i _ (hlen ▸ hi)
      have hr := ih _ _ h
      rw [hacc] at hr
      have hstep : acc * 2 ^ (ALPHABET pos).2 + i + 1 ≤ (acc + 1) * 2 ^ (ALPHABET pos).2 := by
        have : i + 1 ≤ 2 ^ (ALPHABET pos).2 := hlen ▸ hi
        nlinarith
      calc r < 2 ^ ((rest.map (fun pc => (ALPHABET pc.1).2)).sum)
                * (acc * 2 ^ (ALPHABET pos).2 + i + 1) := hr
        _ ≤ 2 ^ ((rest.map (fun pc => (ALPHABET pc.1).2)).sum)
                * ((acc + 1) * 2 ^ (ALPHABET pos).2) :=
              Nat.mul_le_mul_left _ hstep
        _ = 2 ^ (((pos, c) :: rest).map (fun pc => (ALPHABET pc.1).2)).sum * (acc + 1) := by
              simp [List.map_cons, List.sum_cons, pow_add]
              ring

/-- Every successful decode_uint16 result fits in 16 bits, so the
int.to_bytes(2, "big") call in decode can never overflow. -/
theorem decode_uint16_lt (t : List Char) (x : Nat)
    (h : decode_uint16 t = Except.ok x) : x < 65536 := by
  rw [decode_uint16] at h
  by_cases h5 : t.length = 5
  · rw [if_pos h5] at h
    by_cases hall : t.all (fun c => combinedAlphabet.contains c) = true
    · rw [if_pos hall] at h
      match t, h5 with
      | [a, b, c, d, e], _ =>
        have := decodeLoop_lt (CONSTRUCTION.zip [a, b, c, d, e]) 0 x h
        simpa [CONSTRUCTION, ALPHABET] using this
    · rw [if_neg hall] at h
      exact absurd h (by simp)
  · rw [if_neg h5] at h
    exact absurd h (by simp)

/-- Length of a nonempty join of 5-character tokens. -/
theorem joinSep_length (sep : List Char) : ∀ ts : List (List Char), ts ≠ [] →
    (∀ t ∈ ts, t.length = 5) →
    (joinSep sep ts).length = 5 * ts.length + (ts.length - 1) * sep.length := by
  intro ts
  induction ts with
  | nil => intro h _; exact absurd rfl h
  | cons t ts' ih =>
    intro _ hlen
    cases ts' with
    | nil =>
      show t.length = _
      rw [hlen t (List.mem_cons_self t [])]
      simp
    | cons u us =>
      show (t ++ sep ++ joinSep sep (u :: us)).length = _
      rw [List.length_append, List.length_append]
      rw [ih (by simp) (fun v hv => hlen v (List.mem_cons_of_mem t hv))]
      rw [hlen t (List.mem_cons_self t (u :: us))]
      simp only [List.length_cons, Nat.add_sub_cancel]
      ring

/-- A successful mapM over decode_uint16 returns one word per token. -/
theorem mapM_ok_length : ∀ (ts : List (List Char)) (ws : List Nat),
    ts.mapM decode_uint16 = Except.ok ws → ws.length = ts.length := by
  intro ts
  induction ts with
  | nil =>
    intro ws h
    injection h with h
    simp [← h]
  | cons t ts' ih =>
    intro ws h
    rw [List.mapM_cons] at h
    cases hd : decode_uint16 t with
    | error e =>
      rw [hd] at h
      simp [Bind.bind, Except.bind] at h
    | ok w =>
      rw [hd] at h
      cases hrest : ts'.mapM decode_uint16 with
      | error e =>
        rw [hrest] at h
        simp [Bind.bind, Except.bind, Pure.pure] at h
      | ok ws' =>
        rw [hrest] at h
        simp [Bind.bind, Except.bind, Pure.pure, Except.pure] at h
        rw [← h]
        simp [ih ws' hrest]

/-- The flattened byte output has exactly two bytes per decoded word. -/
theorem flatten_toBytes2_length : ∀ ws : List Nat,
    ((ws.map toBytes2).flatten).length = 2 * ws.length := by
  intro ws
  induction ws with
  | nil => rfl
  | cons w ws' ih =>
    simp only [List.map_cons, List.flatten_cons, List.length_append, ih, toBytes2]
    simp
    omega

/-- A successful decode returns two bytes per candidate token of the split. -/
theorem decode_ok_length (t sep : List Char) (out : List Nat)
    (h : decode t sep = Except.ok out) : out.length = 2 * (splitSep sep t).length := by
  cases sep with
  | nil => exact absurd h (by simp [decode])
  | cons s0 sr =>
    rw [decode] at h
    cases hm : (splitAux s0 sr t []).mapM decode_uint16 with
    | error e =>
      rw [hm] at h
      simp [Bind.bind, Except.bind] at h
    | ok ws =>
      rw [hm] at h
      simp [Bind.bind, Except.bind, Pure.pure, Except.pure] at h
      rw [← h, flatten_toBytes2_length, mapM_ok_length _ _ hm]
      rfl

/-- C1: for every unsigned 16-bit value x in [0, 65535], decoding the token
produced by encoding x returns x again: decode_uint16(encode_uint16(x)) == x. -/
theorem C1_word_round_trip (x : Nat) (hx : x < 65536) :
    decode_uint16 (encode_uint16 x) = Except.ok x :=
  decode_encode_uint16 x hx

/-- Witness for C1 at x = 48813. -/
theorem C1_word_round_trip_witness :
    48813 < 65536 ∧ decode_uint16 (encode_uint16 48813) = Except.ok 48813 :=
  ⟨by decide, C1_word_round_trip 48813 (by decide)⟩

/-- C2 counterexample: at the empty byte sequence with separator "-", encoding
yields the empty string but decoding the empty string fails with InvalidLength
instead of returning the empty byte sequence, so the claimed round trip fails. -/
theorem C2_empty_buffer_counterexample :
    encode [] ['-'] = Except.ok ([] : List Char)
  ∧ decode [] ['-'] = Except.error PqError.InvalidLength
  ∧ decode [] ['-'] ≠ Except.ok ([] : List Nat) := by
  have hdec : decode [] ['-'] = Except.error PqError.InvalidLength := by
    rw [decode, splitAux.eq_1]
    rfl
  refine ⟨rfl, hdec, ?_⟩
  intro hcontra
  rw [hdec] at hcontra
  exact Except.noConfusion hcontra

/-- C2 (amended): for every nonempty even-length byte sequence and every
nonempty separator whose first character is outside both alphabets, decoding
the encoding returns the original bytes. -/
theorem C2_buffer_round_trip (data : List Nat) (s0 : Char) (sr : List Char)
    (hne : data ≠ []) (hev : data.length % 2 = 0) (hbytes : ∀ b ∈ data, b < 256)
    (hs : s0 ∉ combinedAlphabet) (out : List Char)
    (hout : encode data (s0 :: sr) = Except.ok out) :
    decode out (s0 :: sr) = Except.ok data :=
  decode_encode_buffer data s0 sr hne hev hbytes hs out hout

/-- Witness for C2 at the bytes of 127.0.0.1 with separator "-". -/
theorem C2_buffer_round_trip_witness :
    ([127, 0, 0, 1] : List Nat) ≠ []
  ∧ ([127, 0, 0, 1] : List Nat).length % 2 = 0
  ∧ (∀ b ∈ ([127, 0, 0, 1] : List Nat), b < 256)
  ∧ '-' ∉ combinedAlphabet
  ∧ encode [127, 0, 0, 1] ['-']
      = Except.ok ['l', 'u', 's', 'a', 'b', '-', 'b', 'a', 'b', 'a', 'd']
  ∧ decode ['l', 'u', 's', 'a', 'b', '-', 'b', 'a', 'b', 'a', 'd'] ['-']
      = Except.ok [127, 0, 0, 1] :=
  ⟨by decide, by decide, by decide, by decide, rfl,
    C2_buffer_round_trip [127, 0, 0, 1] '-' [] (by decide) (by decide) (by decide)
      (by decide) _ rfl⟩

/-- C3: decode_uint16 fails with InvalidSymbol whenever some character of a
5-character token is not a member of the alphabet assigned to that
character's slot (slots 0, 2, 4 consonant; slots 1, 3 vowel). -/
theorem C3_invalid_slot_symbol (t : List Char) (h5 : t.length = 5)
    (hbad : ∃ i, i < 5 ∧ t.getD i ' ' ∉ (ALPHABET (CONSTRUCTION.getD i Slot.C)).1) :
    decode_uint16 t = Except.error PqError.InvalidSymbol := by
  match t, h5 with
  | [a, b, c, d, e], _ =>
    rw [decode_uint16, if_pos (show [a, b, c, d, e].length = 5 by simp)]
    by_cases hall : [a, b, c, d, e].all (fun ch => combinedAlphabet.contains ch) = true
    · rw [if_pos hall]
      rcases decodeLoop_ok_or_invalid (CONSTRUCTION.zip [a, b, c, d, e]) 0 with ⟨r, hr⟩ | herr
      · exfalso
        have hmem := decodeLoop_ok_mem _ _ _ hr
        have h0 := hmem (Slot.C, a) (by simp [CONSTRUCTION])
        have h1 := hmem (Slot.V, b) (by simp [CONSTRUCTION])
        have h2 := hmem (Slot.C, c) (by simp [CONSTRUCTION])
        have h3 := hmem (Slot.V, d) (by simp [CONSTRUCTION])
        have h4 := hmem (Slot.C, e) (by simp [CONSTRUCTION])
        obtain ⟨i, hi5, hbadi⟩ := hbad
        interval_cases i <;> simp_all [CONSTRUCTION, ALPHABET]
      · exact herr
    · rw [if_neg hall]

/-- Witness for C3 at the token "aaaaa": a vowel sits in consonant slot 0. -/
theorem C3_invalid_slot_symbol_witness :
    (['a', 'a', 'a', 'a', 'a'] : List Char).length = 5
  ∧ (∃ i, i < 5 ∧ (['a', 'a', 'a', 'a', 'a'] : List Char).getD i ' '
      ∉ (ALPHABET (CONSTRUCTION.getD i Slot.C)).1)
  ∧ decode_uint16 ['a', 'a', 'a', 'a', 'a'] = Except.error PqError.InvalidSymbol :=
  ⟨by decide, ⟨0, by decide, by decide⟩,
    C3_invalid_slot_symbol ['a', 'a', 'a', 'a', 'a'] (by decide)
      ⟨0, by decide, by decide⟩⟩

/-- C4: the fixed conformance vectors hold exactly: encoding the bytes of
127.0.0.1 with the default separator gives "lusab-babad", and decoding
"sinid-makam" gives the bytes of 198.81.129.136. -/
theorem C4_conformance_vectors :
    encode [0x7f, 0x00, 0x00, 0x01] ['-']
      = Except.ok ['l', 'u', 's', 'a', 'b', '-', 'b', 'a', 'b', 'a', 'd']
  ∧ decode ['s', 'i', 'n', 'i', 'd', '-', 'm', 'a', 'k', 'a', 'm'] ['-']
      = Except.ok [0xc6, 0x51, 0x81, 0x88] := by
  have hsp : splitAux '-' [] ['s', 'i', 'n', 'i', 'd', '-', 'm', 'a', 'k', 'a', 'm'] []
      = [['s', 'i', 'n', 'i', 'd'], ['m', 'a', 'k', 'a', 'm']] :=
    splitAux_joinSep '-' [] (by decide)
      [['s', 'i', 'n', 'i', 'd'], ['m', 'a', 'k', 'a', 'm']] (by simp) (by decide)
  refine ⟨rfl, ?_⟩
  rw [decode, hsp]
  rfl

/-- C5: on every 16-bit value the iterative encoder agrees with the reference
shift-and-mask definition. -/
theorem C5_shiftmask_refinement (x : Nat) (hx : x < 65536) :
    encode_uint16 x = encode_uint16_ref x := by
  have h15 : ∀ y : Nat, y &&& 15 = y % 16 := fun y => by
    have h := Nat.and_pow_two_sub_one_eq_mod y 4
    norm_num at h
    exact h
  have h3 : ∀ y : Nat, y &&& 3 = y % 4 := fun y => by
    have h := Nat.and_pow_two_sub_one_eq_mod y 2
    norm_num at h
    exact h
  rw [encode_uint16_eq, encode_uint16_ref]
  norm_num [Nat.shiftRight_eq_div_pow, h15, h3]

/-- Witness for C5 at x = 6789. -/
theorem C5_shiftmask_refinement_witness :
    6789 < 65536 ∧ encode_uint16 6789 = encode_uint16_ref 6789 :=
  ⟨by decide, C5_shiftmask_refinement 6789 (by decide)⟩

/-- C6: length invariants — every token has 5 characters; a successful encode
of nonempty even-length data of N = len/2 words has length 5N + (N-1)·len(sep);
a successful decode returns 2 bytes per candidate token of the split. -/
theorem C6_length_invariants :
    (∀ x : Nat, (encode_uint16 x).length = 5)
  ∧ (∀ (data : List Nat) (sep out : List Char), data ≠ [] →
      data.length % 2 = 0 → encode data sep = Except.ok out →
      out.length = 5 * (data.length / 2) + (data.length / 2 - 1) * sep.length)
  ∧ (∀ (t sep : List Char) (out : List Nat), decode t sep = Except.ok out →
      out.length = 2 * (splitSep sep t).length) := by
  refine ⟨encode_uint16_length, ?_, decode_ok_length⟩
  intro data sep out hne hev hout
  rw [encode, if_pos hev] at hout
  injection hout with hout
  subst hout
  rw [joinSep_length sep _
    (fun hmap => chunkPairs_ne_nil data hne hev (List.map_eq_nil_iff.mp hmap))
    (fun t ht => by
      obtain ⟨wb, _, rfl⟩ := List.mem_map.mp ht
      exact encode_uint16_length _)]
  rw [List.length_map, chunkPairs_length data hev]

/-- Witness for C6 at x = 300, data = [1, 2] (encoding to "bahaf") and the
decode of "bahaf". -/
theorem C6_length_invariants_witness :
    (encode_uint16 300).length = 5
  ∧ (([1, 2] : List Nat) ≠ [] ∧ ([1, 2] : List Nat).length % 2 = 0
      ∧ encode [1, 2] ['-'] = Except.ok ['b', 'a', 'h', 'a', 'f']
      ∧ (['b', 'a', 'h', 'a', 'f'] : List Char).length
          = 5 * (([1, 2] : List Nat).length / 2)
            + (([1, 2] : List Nat).length / 2 - 1) * (['-'] : List Char).length)
  ∧ (decode ['b', 'a', 'h', 'a', 'f'] ['-'] = Except.ok [1, 2]
      ∧ ([1, 2] : List Nat).length
          = 2 * (splitSep ['-'] ['b', 'a', 'h', 'a', 'f']).length) :=
  by
  have hsp : splitAux '-' [] ['b', 'a', 'h', 'a', 'f'] [] = [['b', 'a', 'h', 'a', 'f']] :=
    splitAux_joinSep '-' [] (by decide) [['b', 'a', 'h', 'a', 'f']] (by simp) (by decide)
  have hdec : decode ['b', 'a', 'h', 'a', 'f'] ['-'] = Except.ok [1, 2] := by
    rw [decode, hsp]
    rfl
  exact ⟨C6_length_invariants.1 300,
    ⟨by decide, by decide, rfl,
      C6_length_invariants.2.1 [1, 2] ['-'] _ (by decide) (by decide) rfl⟩,
    ⟨hdec, C6_length_invariants.2.2 ['b', 'a', 'h', 'a', 'f'] ['-'] [1, 2] hdec⟩⟩

/-- C7: encode fails with InvalidInputLength exactly on odd-length input,
succeeds on every even-length input, and maps empty input to the empty
string. -/
theorem C7_encode_length_errors (data : List Nat) (sep : List Char) :
    (data.length % 2 = 1 → encode data sep = Except.error PqError.InvalidInputLength)
  ∧ (data.length % 2 = 0 → ∃ out, encode data sep = Except.ok out)
  ∧ encode ([] : List Nat) sep = Except.ok ([] : List Char) := by
  refine ⟨?_, ?_, rfl⟩
  · intro hodd
    rw [encode, if_neg (by omega)]
  · intro hev
    exact ⟨_, by rw [encode, if_pos hev]⟩

/-- Witness for C7 at the odd input [1, 2, 3] and the even input [1, 2]. -/
theorem C7_encode_length_errors_witness :
    ([1, 2, 3] : List Nat).length % 2 = 1
  ∧ encode [1, 2, 3] ['-'] = Except.error PqError.InvalidInputLength
  ∧ ([1, 2] : List Nat).length % 2 = 0
  ∧ (∃ out, encode [1, 2] ['-'] = Except.ok out)
  ∧ encode ([] : List Nat) ['-'] = Except.ok ([] : List Char) :=
  ⟨by decide, (C7_encode_length_errors [1, 2, 3] ['-']).1 (by decide), by decide,
    (C7_encode_length_errors [1, 2] ['-']).2.1 (by decide),
    (C7_encode_length_errors [] ['-']).2.2⟩

/-- C8: decode_uint16 fails with InvalidLength on every token that is not
exactly 5 characters, before any symbol is looked up — the theorem holds for
arbitrary characters, valid or not. -/
theorem C8_decode_word_length_error (t : List Char) (h : t.length ≠ 5) :
    decode_uint16 t = Except.error PqError.InvalidLength := by
  rw [decode_uint16, if_neg h]

/-- Witness for C8 at a 4-character and a 6-character input (with characters
outside both alphabets, showing the length check wins). -/
theorem C8_decode_word_length_error_witness :
    (['w', 'e', 'w', 'e'] : List Char).length ≠ 5
  ∧ decode_uint16 ['w', 'e', 'w', 'e'] = Except.error PqError.InvalidLength
  ∧ (['b', 'a', 'b', 'a', 'b', 'a'] : List Char).length ≠ 5
  ∧ decode_uint16 ['b', 'a', 'b', 'a', 'b', 'a'] = Except.error PqError.InvalidLength :=
  ⟨by decide, C8_decode_word_length_error ['w', 'e', 'w', 'e'] (by decide),
    by decide, C8_decode_word_length_error ['b', 'a', 'b', 'a', 'b', 'a'] (by decide)⟩

/-- C9: the encoder discards all bits above the low 16: for every nonnegative
x, encode_uint16(x) = encode_uint16(x mod 65536). -/
theorem C9_encode_mod_65536 (x : Nat) :
    encode_uint16 x = encode_uint16 (x % 65536) := by
  rw [encode_uint16_eq, encode_uint16_eq]
  have e1 : x % 65536 / 4096 % 16 = x / 4096 % 16 := by omega
  have e2 : x % 65536 / 1024 % 4 = x / 1024 % 4 := by omega
  have e3 : x % 65536 / 64 % 16 = x / 64 % 16 := by omega
  have e4 : x % 65536 / 16 % 4 = x / 16 % 4 := by omega
  have e5 : x % 65536 % 16 = x % 16 := by omega
  rw [e1, e2, e3, e4, e5]

/-- C10: decoding the empty string does not return the empty byte sequence:
with any nonempty separator the split yields one empty candidate token and
decode fails with InvalidLength, so decode is not the exact inverse of encode
at the empty input (where encode returns the empty string). -/
theorem C10_decode_empty_string (sep : List Char) :
    decode [] sep ≠ Except.ok ([] : List Nat)
  ∧ (sep ≠ [] → splitSep sep [] = [([] : List Char)]
      ∧ decode [] sep = Except.error PqError.InvalidLength)
  ∧ encode ([] : List Nat) sep = Except.ok ([] : List Char) := by
  have hdec : ∀ (s0 : Char) (sr : List Char),
      decode [] (s0 :: sr) = Except.error PqError.InvalidLength := by
    intro s0 sr
    rw [decode, splitAux.eq_1]
    rfl
  refine ⟨?_, ?_, rfl⟩
  · cases sep with
    | nil =>
      intro hcontra
      exact Except.noConfusion hcontra
    | cons s0 sr =>
      intro hcontra
      rw [hdec s0 sr] at hcontra
      exact Except.noConfusion hcontra
  · intro hne
    cases sep with
    | nil => exact absurd rfl hne
    | cons s0 sr =>
      refine ⟨?_, hdec s0 sr⟩
      show splitAux s0 sr [] [] = [([] : List Char)]
      rw [splitAux.eq_1]
      rfl

/-- Witness for C10 at the separator "-". -/
theorem C10_decode_empty_string_witness :
    decode [] ['-'] ≠ Except.ok ([] : List Nat)
  ∧ splitSep ['-'] [] = [([] : List Char)]
  ∧ decode [] ['-'] = Except.error PqError.InvalidLength
  ∧ encode ([] : List Nat) ['-'] = Except.ok ([] : List Char) :=
  ⟨(C10_decode_empty_string ['-']).1,
    ((C10_decode_empty_string ['-']).2.1 (by decide)).1,
    ((C10_decode_empty_string ['-']).2.1 (by decide)).2,
    (C10_decode_empty_string ['-']).2.2⟩

end Proquint
